import Mathlib

/-!
Verification of the BIP-39 seed-plate helper (`main.py`).

The program converts a 24-word BIP-39 mnemonic into two 12-row punch-grid
layouts.  This file gives a shallow embedding of its components:

* `POWERS_DESC`, `rows_to_punch`  — the bit decomposer;
* `load_bip39`                    — the wordlist loader (the file is modelled
  as an optional list of raw lines, `none` meaning a missing file);
* `one_based_index`, `get_close_matches` — the word resolver; the similarity
  score of `difflib.SequenceMatcher.ratio` (an external stdlib capability)
  is a parameter `ratio : String → String → ℚ`, since only the filter /
  sort / truncate structure of `get_close_matches` lives in this program;
* `Session`, `step`, `runLoop`    — the interactive session loop;
* `render_plate_rotated`          — the plate renderer, producing structured
  rows (word number, raw index, mark per weight column) plus the text lines;
* `self_check_pass`, `chooseMode` — the diagnostic mode.

Theorems about these definitions follow after all definitions.
-/

set_option maxRecDepth 10000

/-- `POWERS_DESC = [2048, 1024, 512, 256, 128, 64, 32, 16, 8, 4, 2, 1]`. -/
def POWERS_DESC : List Nat := [2048, 1024, 512, 256, 128, 64, 32, 16, 8, 4, 2, 1]

/-- `MAX_WORDS = 24`. -/
def MAX_WORDS : Nat := 24

/-- `PLATE_ROWS = 12` (12 words per plate). -/
def PLATE_ROWS : Nat := 12

/-- `rows_to_punch(idx1)`: the powers in `POWERS_DESC` whose bitwise AND with
`idx1` is non-zero, in list order. -/
def rows_to_punch (idx1 : Nat) : List Nat :=
  POWERS_DESC.filter (fun p => idx1 &&& p != 0)

/-- The body of `_self_check`: for every `i` in `1..2048` the punched weights
sum back to `i`.  Mirrors the `assert s == i` loop as a boolean check. -/
def self_check_pass : Bool :=
  (List.range 2048).all (fun j =>
    ((POWERS_DESC.filter (fun p => (j + 1) &&& p != 0)).sum == j + 1))

/-- A list where every element strictly dominates the sum of all later
elements (true of `POWERS_DESC`); under this condition sublists have
pairwise distinct sums. -/
def DomListB : List Nat → Bool
  | [] => true
  | a :: rest => (rest.sum < a) && DomListB rest

/-- Python `str.strip()`: drop whitespace from both ends, computed on the
character list of the string (the ASCII whitespace of `Char.isWhitespace`;
the wordlist and the commands are ASCII). -/
def pyStrip (s : String) : String :=
  String.mk
    (((s.data.dropWhile Char.isWhitespace).reverse.dropWhile
      Char.isWhitespace).reverse)

/-- Python `str.lower()`: lowercase each character, computed on the
character list of the string (ASCII case mapping of `Char.toLower`). -/
def pyLower (s : String) : String := String.mk (s.data.map Char.toLower)

/-- First-occurrence position (0-based) of `word` in a list, mirroring
Python `list.index` (which scans left to right and stops at the first hit;
`none` plays the role of the `ValueError`). -/
def indexOf0 (word : String) : List String → Option Nat
  | [] => none
  | w :: rest => if w = word then some 0 else (indexOf0 word rest).map (· + 1)

/-- The error raised by `one_based_index`: the message text together with the
suggestion list that was spliced into it. -/
structure ResolveError where
  msg : String
  hints : List String
deriving DecidableEq

/-- Insert a scored candidate into a list kept in descending score order. -/
def insertDesc (x : ℚ × String) : List (ℚ × String) → List (ℚ × String)
  | [] => [x]
  | y :: ys => if y.1 ≤ x.1 then x :: y :: ys else y :: insertDesc x ys

/-- Sort scored candidates by descending score (the `_nlargest` step of
`difflib.get_close_matches`, before truncation). -/
def sortScoresDesc : List (ℚ × String) → List (ℚ × String)
  | [] => []
  | x :: xs => insertDesc x (sortScoresDesc xs)

/-- `difflib.get_close_matches(word, possibilities, n, cutoff)`: keep the
possibilities whose similarity to `word` reaches `cutoff`, order them by
descending similarity, return the first `n`.  The similarity score of
`SequenceMatcher.ratio` (a stdlib capability outside this program) is the
parameter `ratio`; its values are rationals `2M/T`. -/
def get_close_matches (ratio : String → String → ℚ) (word : String)
    (possibilities : List String) (n : Nat) (cutoff : ℚ) : List String :=
  let kept := possibilities.filter (fun x => decide (cutoff ≤ ratio x word))
  ((sortScoresDesc (kept.map (fun x => (ratio x word, x)))).take n).map Prod.snd

/-- `one_based_index(word, wordlist)`: 1-based first-occurrence position on
success; on a miss, a `ResolveError` carrying up to 3 close matches at
cutoff `0.75`, as in the `ValueError` branch of the source. -/
def one_based_index (ratio : String → String → ℚ) (word : String)
    (wordlist : List String) : Except ResolveError Nat :=
  match indexOf0 word wordlist with
  | some k => .ok (k + 1)
  | none =>
    let hint := get_close_matches ratio word wordlist 3 (3 / 4)
    let msg := "Word " ++ word ++ " not in BIP39 list." ++
      (if hint.isEmpty then "" else
        " Did you mean: " ++ String.intercalate (", ") hint ++ "?")
    .error ⟨msg, hint⟩

/-- `load_bip39()`: the file is an optional list of raw lines (`none` for a
missing file, `sys.exit` becomes `Except.error`).  Lines are stripped,
blank lines dropped, and the count must be exactly 2048. -/
def load_bip39 (file : Option (List String)) : Except String (List String) :=
  match file with
  | none => .error ("Word list file not found.")
  | some rawLines =>
    let words := (rawLines.map pyStrip).filter (fun w => w != "")
    if words.length = 2048 then .ok words
    else .error ("Unexpected word list length: " ++ toString words.length ++
      " (expected 2048).")

/-- The state of `main`: the two parallel lists `words` and `indices`. -/
structure Session where
  words : List String
  indices : List Nat
deriving DecidableEq

/-- The empty session `words, indices = [], []`. -/
def initSession : Session := ⟨[], []⟩

/-- One iteration of the `while` body of `main` on one input line:
strip and lowercase, handle the two undo spellings, ignore blank input,
then resolve and append, leaving the state unchanged on a resolver error. -/
def step (ratio : String → String → ℚ) (wordlist : List String)
    (s : Session) (input : String) : Session :=
  let raw := pyLower (pyStrip input)
  if raw = "back" ∨ raw = "undo" then
    if s.words.isEmpty then s
    else ⟨s.words.dropLast, s.indices.dropLast⟩
  else if raw = "" then s
  else
    match one_based_index ratio raw wordlist with
    | .ok idx1 => ⟨s.words ++ [raw], s.indices ++ [idx1]⟩
    | .error _ => s

/-- The `while len(words) < MAX_WORDS` loop of `main` over a stream of input
lines: the guard is tested before each read, and once it fails the remaining
input is never consumed. -/
def runLoop (ratio : String → String → ℚ) (wordlist : List String) :
    Session → List String → Session
  | s, [] => s
  | s, input :: rest =>
    if s.words.length < MAX_WORDS then
      runLoop ratio wordlist (step ratio wordlist s input) rest
    else s

/-- One rendered grid row: the word number printed on the left, the raw
1-based index printed on the right, and one mark per weight column. -/
structure PlateRow where
  wordNo : Nat
  idx1 : Nat
  marks : List Bool
deriving DecidableEq

/-- The row built for word number `wordNo` with index `idx1`: the mark under
weight `p` is filled exactly when `idx1 &&& p != 0`. -/
def plateRowOf (wordNo idx1 : Nat) : PlateRow :=
  ⟨wordNo, idx1, POWERS_DESC.map (fun p => idx1 &&& p != 0)⟩

/-- The `for r, idx1 in enumerate(block_indices, start=...)` loop:
one row per index, word numbers counting up from `startWordNo`. -/
def plateRows (startWordNo : Nat) : List Nat → List PlateRow
  | [] => []
  | idx1 :: rest => plateRowOf startWordNo idx1 :: plateRows (startWordNo + 1) rest

/-- A rendered plate: title data, the header row of weights, and the grid
rows. -/
structure Plate where
  plateNo : Nat
  headerWeights : List Nat
  rows : List PlateRow
deriving DecidableEq

/-- `render_plate_rotated(block_indices, plate_no, start_word_no)` as a pure
value: the printed grid, structured. -/
def render_plate_rotated (block_indices : List Nat)
    (plate_no start_word_no : Nat) : Plate :=
  ⟨plate_no, POWERS_DESC, plateRows start_word_no block_indices⟩

/-- Left-pad with spaces to `w` characters (Python `f-string >w`). -/
def padLeft (w : Nat) (s : String) : String :=
  String.join (List.replicate (w - s.length) (" ")) ++ s

/-- One mark cell of a row line. -/
def markCell (b : Bool) : String := if b then ("  ● ") else ("  · ")

/-- The printed text of one grid row. -/
def rowLine (row : PlateRow) : String :=
  padLeft 3 (toString row.wordNo) ++ " |" ++
    String.intercalate (" ") (row.marks.map markCell) ++
    "  (" ++ toString row.idx1 ++ ")"

/-- The printed text of a plate: title, weight header, rule, one line per
row. -/
def plateLines (pl : Plate) : List String :=
  ("=== PLATE " ++ toString pl.plateNo ++ " ===") ::
  ("     " ++ String.intercalate (" ") (pl.headerWeights.map
    (fun p => padLeft 4 (toString p)))) ::
  ("     " ++ String.intercalate (" ") (pl.headerWeights.map
    (fun _ => "----"))) ::
  pl.rows.map rowLine

/-- The two `render_plate_rotated` calls at the end of `main`:
plate 1 from the first 12 indices starting at word number 1, plate 2 from
the rest starting at word number 13. -/
def mainPlates (indices : List Nat) : Plate × Plate :=
  (render_plate_rotated (indices.take PLATE_ROWS) 1 1,
   render_plate_rotated (indices.drop PLATE_ROWS) 2 13)

/-- The two invocation modes of the `__main__` guard. -/
inductive RunMode
  | selfCheck
  | interactive
deriving DecidableEq

/-- The `__main__` guard: `--check` as the first argument runs the
self-check and exits (never reaching `main()`); anything else runs the
interactive session. -/
def chooseMode (argv : List String) : RunMode :=
  if 1 < argv.length ∧ argv[1]? = some ("--check") then RunMode.selfCheck
  else RunMode.interactive

/-- A constant similarity score, a concrete instance of the external
`ratio` capability, used to evaluate the resolver on concrete inputs. -/
def ratio0 : String → String → ℚ := fun _ _ => 0

/-- A small concrete wordlist for evaluating the resolver and the session
loop on concrete inputs. -/
def wl0 : List String := ["abandon", "ability", "able"]

theorem sublist_sum_le {s l : List Nat} (h : s.Sublist l) : s.sum ≤ l.sum := by
  induction h with
  | slnil => simp
  | cons a _ ih => simp only [List.sum_cons]; omega
  | cons₂ a _ ih => simp only [List.sum_cons]; omega

theorem dom_sublist_sum_inj {l : List Nat} (hd : DomListB l = true) :
    ∀ {s t : List Nat}, s.Sublist l → t.Sublist l → s.sum = t.sum → s = t := by
  induction l with
  | nil =>
    intro s t hs ht _
    rw [List.sublist_nil.mp hs, List.sublist_nil.mp ht]
  | cons a rest ih =>
    simp only [DomListB, Bool.and_eq_true, decide_eq_true_eq] at hd
    intro s t hs ht hsum
    rcases List.sublist_cons_iff.mp hs with hs' | ⟨s', rfl, hs'⟩
    · rcases List.sublist_cons_iff.mp ht with ht' | ⟨t', rfl, ht'⟩
      · exact ih hd.2 hs' ht' hsum
      · exfalso
        have h1 : s.sum ≤ rest.sum := sublist_sum_le hs'
        simp only [List.sum_cons] at hsum
        omega
    · rcases List.sublist_cons_iff.mp ht with ht' | ⟨t', rfl, ht'⟩
      · exfalso
        have h1 : t.sum ≤ rest.sum := sublist_sum_le ht'
        simp only [List.sum_cons] at hsum
        omega
      · simp only [List.sum_cons] at hsum
        have : s'.sum = t'.sum := by omega
        rw [ih hd.2 hs' ht' this]

theorem powers_sum_check : self_check_pass = true := by decide

theorem powers_dom : DomListB POWERS_DESC = true := by decide

theorem powers_pairwise : POWERS_DESC.Pairwise (· > ·) := by decide

theorem sum_rows_to_punch {idx : Nat} (h1 : 1 ≤ idx) (h2 : idx ≤ 2048) :
    (rows_to_punch idx).sum = idx := by
  have h := powers_sum_check
  rw [self_check_pass, List.all_eq_true] at h
  have h3 := h (idx - 1) (by rw [List.mem_range]; omega)
  simp only [beq_iff_eq] at h3
  have heq : idx - 1 + 1 = idx := by omega
  rw [heq] at h3
  simpa [rows_to_punch] using h3

/-- C1: for every index in `[1,2048]`, `rows_to_punch` returns exactly the
powers among the twelve descending powers of two whose bitwise AND with the
index is non-zero, in descending order; this is the unique sublist of
`POWERS_DESC` summing to the index; and the three end-to-end examples
(3, 2048, 2047) decompose as stated. -/
theorem decompose_correct (idx : Nat) (h1 : 1 ≤ idx) (h2 : idx ≤ 2048) :
    rows_to_punch idx = POWERS_DESC.filter (fun p => idx &&& p != 0)
  ∧ (rows_to_punch idx).Pairwise (· > ·)
  ∧ (rows_to_punch idx).Sublist POWERS_DESC
  ∧ (rows_to_punch idx).sum = idx
  ∧ (∀ s : List Nat, s.Sublist POWERS_DESC → s.sum = idx → s = rows_to_punch idx)
  ∧ rows_to_punch 3 = [2, 1]
  ∧ rows_to_punch 2048 = [2048]
  ∧ rows_to_punch 2047 = [1024, 512, 256, 128, 64, 32, 16, 8, 4, 2, 1] := by
  refine ⟨rfl, List.Pairwise.filter _ powers_pairwise, List.filter_sublist _,
    sum_rows_to_punch h1 h2, ?_, by decide, by decide, by decide⟩
  intro s hs hsum
  exact dom_sublist_sum_inj powers_dom hs (List.filter_sublist _)
    (hsum.trans (sum_rows_to_punch h1 h2).symm)

/-- Witness for C1 at index 3. -/
theorem decompose_correct_witness :
    (1 ≤ 3 ∧ 3 ≤ 2048) ∧ rows_to_punch 3 = [2, 1] :=
  ⟨⟨by decide, by decide⟩,
    (decompose_correct 3 (by decide) (by decide)).2.2.2.2.2.1⟩

/-- C9: the exhaustive self-check holds (the assertion never fails for any
index `1..2048`, so the check reaches its pass confirmation), and the
`--check` argument selects the self-check-only mode (the interactive
session does not run) exactly when it is the first argument. -/
theorem self_check_mode (argv : List String) :
    self_check_pass = true
  ∧ (∀ i : Nat, 1 ≤ i → i ≤ 2048 →
      (POWERS_DESC.filter (fun p => i &&& p != 0)).sum = i)
  ∧ (chooseMode argv = RunMode.selfCheck ↔
      1 < argv.length ∧ argv[1]? = some ("--check")) := by
  refine ⟨powers_sum_check,
    fun i hi1 hi2 => by simpa [rows_to_punch] using sum_rows_to_punch hi1 hi2, ?_⟩
  constructor
  · intro h
    by_contra hc
    rw [chooseMode, if_neg hc] at h
    exact absurd h (by decide)
  · intro h
    rw [chooseMode, if_pos h]

/-- Witness for C9 on a concrete argument vector. -/
theorem self_check_mode_witness :
    chooseMode (["main.py", "--check"]) = RunMode.selfCheck :=
  (self_check_mode (["main.py", "--check"])).2.2.mpr ⟨by decide, rfl⟩

theorem step_cases (ratio : String → String → ℚ) (wl : List String)
    (s : Session) (input : String) :
    step ratio wl s input = s
  ∨ (∃ i, step ratio wl s input =
      ⟨s.words ++ [pyLower (pyStrip input)], s.indices ++ [i]⟩)
  ∨ (s.words ≠ [] ∧ step ratio wl s input =
      ⟨s.words.dropLast, s.indices.dropLast⟩) := by
  simp only [step]
  split
  · split
    · exact Or.inl rfl
    · refine Or.inr (Or.inr ⟨?_, rfl⟩)
      simpa [List.isEmpty_iff] using ‹¬s.words.isEmpty = true›
  · split
    · exact Or.inl rfl
    · split
      · exact Or.inr (Or.inl ⟨_, rfl⟩)
      · exact Or.inl rfl

theorem step_length_le (ratio : String → String → ℚ) (wl : List String)
    (s : Session) (input : String) :
    (step ratio wl s input).words.length ≤ s.words.length + 1 := by
  rcases step_cases ratio wl s input with h | ⟨i, h⟩ | ⟨_, h⟩ <;>
    simp only [h, List.length_append, List.length_dropLast,
      List.length_cons, List.length_nil] <;> omega

theorem runLoop_length_le (ratio : String → String → ℚ) (wl : List String)
    (inputs : List String) (s : Session) (h : s.words.length ≤ MAX_WORDS) :
    (runLoop ratio wl s inputs).words.length ≤ MAX_WORDS := by
  induction inputs generalizing s with
  | nil => simpa [runLoop] using h
  | cons input rest ih =>
    rw [runLoop]
    split
    · apply ih
      have h1 := step_length_le ratio wl s input
      have h2 : s.words.length < MAX_WORDS := ‹_›
      omega
    · exact h

theorem step_sync (ratio : String → String → ℚ) (wl : List String)
    (s : Session) (input : String) (h : s.words.length = s.indices.length) :
    (step ratio wl s input).words.length = (step ratio wl s input).indices.length := by
  simp only [step]
  split
  · split
    · exact h
    · simp [List.length_dropLast, h]
  · split
    · exact h
    · split
      · simp [h]
      · exact h

theorem runLoop_sync (ratio : String → String → ℚ) (wl : List String)
    (inputs : List String) (s : Session) (h : s.words.length = s.indices.length) :
    (runLoop ratio wl s inputs).words.length
      = (runLoop ratio wl s inputs).indices.length := by
  induction inputs generalizing s with
  | nil => simpa [runLoop] using h
  | cons input rest ih =>
    rw [runLoop]
    split
    · exact ih _ (step_sync ratio wl s input h)
    · exact h

/-- C2: after any sequence of session-loop inputs the number of held entries
is in `[0, 24]`; the session is mutated only by an append (on a valid word)
or a remove-last (on undo with at least one entry); an undo with no entries,
a blank input, and an unresolvable word each leave the state unchanged. -/
theorem session_invariant (ratio : String → String → ℚ) (wl : List String)
    (inputs : List String) (s : Session) (input : String) :
    ((runLoop ratio wl initSession inputs).words.length ≤ MAX_WORDS
      ∧ 0 ≤ (runLoop ratio wl initSession inputs).words.length)
  ∧ (step ratio wl s input = s
      ∨ (∃ i, step ratio wl s input =
          ⟨s.words ++ [pyLower (pyStrip input)], s.indices ++ [i]⟩)
      ∨ (s.words ≠ [] ∧ step ratio wl s input =
          ⟨s.words.dropLast, s.indices.dropLast⟩))
  ∧ ((pyLower (pyStrip input) = "back" ∨ pyLower (pyStrip input) = "undo") →
      s.words = [] → step ratio wl s input = s)
  ∧ ((pyLower (pyStrip input) = "back" ∨ pyLower (pyStrip input) = "undo") →
      s.words ≠ [] →
      step ratio wl s input = ⟨s.words.dropLast, s.indices.dropLast⟩)
  ∧ (pyLower (pyStrip input) = "" → step ratio wl s input = s)
  ∧ (∀ e, ¬(pyLower (pyStrip input) = "back" ∨ pyLower (pyStrip input) = "undo") →
      one_based_index ratio (pyLower (pyStrip input)) wl = .error e →
      step ratio wl s input = s)
  ∧ (∀ i, ¬(pyLower (pyStrip input) = "back" ∨ pyLower (pyStrip input) = "undo") →
      pyLower (pyStrip input) ≠ "" →
      one_based_index ratio (pyLower (pyStrip input)) wl = .ok i →
      step ratio wl s input =
        ⟨s.words ++ [pyLower (pyStrip input)], s.indices ++ [i]⟩) := by
  refine ⟨⟨runLoop_length_le ratio wl inputs initSession (by simp [initSession]),
      Nat.zero_le _⟩,
    step_cases ratio wl s input, ?_, ?_, ?_, ?_, ?_⟩
  · intro hcmd hnil
    simp [step, hcmd, hnil, initSession]
  · intro hcmd hne
    have : ¬s.words.isEmpty = true := by simpa [List.isEmpty_iff] using hne
    simp [step, hcmd, this]
  · intro hre
    by_cases hcmd : pyLower (pyStrip input) = "back" ∨ pyLower (pyStrip input) = "undo"
    · rcases hcmd with hb | hb <;> simp [hb] at hre
    · simp [step, hcmd, hre]
  · intro e hcmd herr
    by_cases hre : pyLower (pyStrip input) = ""
    · simp [step, hcmd, hre]
    · simp [step, hcmd, hre, herr]
  · intro i hcmd hre hok
    simp [step, hcmd, hre, hok]

/-- Witness for C2: an undo command (uppercase with surrounding space) on
an empty session leaves the session unchanged. -/
theorem session_invariant_witness :
    step ratio0 wl0 initSession (" BACK ") = initSession :=
  (session_invariant ratio0 wl0 [] initSession (" BACK ")).2.2.1
    (Or.inl (by decide)) rfl

theorem indexOf0_spec (word : String) (l : List String) (h : word ∈ l) :
    ∃ k, indexOf0 word l = some k ∧ l[k]? = some word
      ∧ ∀ j < k, l[j]? ≠ some word := by
  induction l with
  | nil => cases h
  | cons w rest ih =>
    by_cases hw : w = word
    · exact ⟨0, by simp [indexOf0, hw], by simp [hw], by intro j hj; omega⟩
    · have h2 : word ∈ rest := by
        rcases List.mem_cons.mp h with h1 | h1
        · exact absurd h1.symm hw
        · exact h1
      rcases ih h2 with ⟨k, h3, h4, h5⟩
      refine ⟨k + 1, by simp [indexOf0, hw, h3], by simpa using h4, ?_⟩
      intro j hj
      cases j with
      | zero => simpa using fun hc => hw hc
      | succ j2 => simpa using h5 j2 (by omega)

theorem indexOf0_eq_none (word : String) (l : List String) (h : word ∉ l) :
    indexOf0 word l = none := by
  induction l with
  | nil => rfl
  | cons w rest ih =>
    have hw : ¬w = word := fun hc => h (by simp [hc])
    have h2 : word ∉ rest := fun hc => h (List.mem_cons_of_mem _ hc)
    simp [indexOf0, hw, ih h2]

/-- C3: for every word present in the wordlist, the resolver succeeds with
the 1-based position of its first occurrence, and resolving twice gives the
same result. -/
theorem resolve_in_list (ratio : String → String → ℚ) (w : String)
    (wl : List String) (h : w ∈ wl) :
    (∃ k, one_based_index ratio w wl = .ok (k + 1)
        ∧ wl[k]? = some w
        ∧ ∀ j < k, wl[j]? ≠ some w)
  ∧ one_based_index ratio w wl = one_based_index ratio w wl := by
  rcases indexOf0_spec w wl h with ⟨k, h1, h2, h3⟩
  exact ⟨⟨k, by simp [one_based_index, h1], h2, h3⟩, rfl⟩

/-- Witness for C3 at the second entry of a concrete wordlist. -/
theorem resolve_in_list_witness :
    ("ability") ∈ wl0
  ∧ (∃ k, one_based_index ratio0 ("ability") wl0 = .ok (k + 1)
      ∧ wl0[k]? = some ("ability")
      ∧ ∀ j < k, wl0[j]? ≠ some ("ability")) :=
  ⟨by decide, (resolve_in_list ratio0 ("ability") wl0 (by decide)).1⟩

theorem insertDesc_perm (x : ℚ × String) (l : List (ℚ × String)) :
    (insertDesc x l).Perm (x :: l) := by
  induction l with
  | nil => exact List.Perm.refl _
  | cons y ys ih =>
    rw [insertDesc]
    split
    · exact List.Perm.refl _
    · exact (List.Perm.cons y ih).trans (List.Perm.swap x y ys)

theorem sortScoresDesc_perm (l : List (ℚ × String)) :
    (sortScoresDesc l).Perm l := by
  induction l with
  | nil => exact List.Perm.refl _
  | cons x xs ih =>
    exact (insertDesc_perm x (sortScoresDesc xs)).trans (List.Perm.cons x ih)

theorem get_close_matches_spec (ratio : String → String → ℚ) (word : String)
    (possibilities : List String) (n : Nat) (cutoff : ℚ) :
    (∀ x ∈ get_close_matches ratio word possibilities n cutoff,
      x ∈ possibilities)
  ∧ (get_close_matches ratio word possibilities n cutoff).length ≤ n := by
  constructor
  · intro x hx
    simp only [get_close_matches, List.mem_map] at hx
    obtain ⟨⟨q, y⟩, hmem, hxy⟩ := hx
    have h1 : (q, y) ∈ sortScoresDesc
        ((possibilities.filter (fun z => decide (cutoff ≤ ratio z word))).map
          (fun z => (ratio z word, z))) :=
      List.mem_of_mem_take hmem
    have h2 := (sortScoresDesc_perm _).mem_iff.mp h1
    simp only [List.mem_map, List.mem_filter] at h2
    obtain ⟨z, ⟨hz, _⟩, hzq⟩ := h2
    have : z = y := congrArg Prod.snd hzq
    subst this
    subst hxy
    exact hz
  · simp only [get_close_matches, List.length_map]
    exact (List.length_take_le _ _)

/-- C4: for every word absent from the wordlist the resolver raises an
error (returns no index); the suggestion list attached to the error
contains only wordlist members, has length at most 3, and is exactly the
`get_close_matches` result at cutoff `0.75`; nothing is mutated. -/
theorem resolve_missing (ratio : String → String → ℚ) (w : String)
    (wl : List String) (h : w ∉ wl) :
    ∃ e, one_based_index ratio w wl = .error e
      ∧ (∀ x ∈ e.hints, x ∈ wl)
      ∧ e.hints.length ≤ 3
      ∧ e.hints = get_close_matches ratio w wl 3 (3 / 4) := by
  have hn := indexOf0_eq_none w wl h
  refine ⟨⟨"Word " ++ w ++ " not in BIP39 list." ++
      (if (get_close_matches ratio w wl 3 (3 / 4)).isEmpty then "" else
        " Did you mean: " ++
          String.intercalate (", ") (get_close_matches ratio w wl 3 (3 / 4)) ++
          "?"),
      get_close_matches ratio w wl 3 (3 / 4)⟩,
    by simp [one_based_index, hn],
    (get_close_matches_spec ratio w wl 3 (3 / 4)).1,
    (get_close_matches_spec ratio w wl 3 (3 / 4)).2, rfl⟩

/-- Witness for C4 on a word outside a concrete wordlist. -/
theorem resolve_missing_witness :
    ("zzz") ∉ wl0
  ∧ ∃ e, one_based_index ratio0 ("zzz") wl0 = .error e
      ∧ (∀ x ∈ e.hints, x ∈ wl0)
      ∧ e.hints.length ≤ 3
      ∧ e.hints = get_close_matches ratio0 ("zzz") wl0 3 (3 / 4) :=
  ⟨by decide, resolve_missing ratio0 ("zzz") wl0 (by decide)⟩

theorem filter_replicate_true (p : String → Bool) (a : String) (n : Nat)
    (h : p a = true) :
    (List.replicate n a).filter p = List.replicate n a := by
  induction n with
  | zero => rfl
  | succ n ih => simp [List.replicate_succ, List.filter_cons, h, ih]

theorem load_replicate (s : String) (hs : pyStrip s = s) (hne : s ≠ "") :
    load_bip39 (some (List.replicate 2048 s)) = .ok (List.replicate 2048 s) := by
  have h1 : (List.replicate 2048 s).map pyStrip = List.replicate 2048 s := by
    rw [List.map_replicate, hs]
  have hp : (s != "") = true := by simpa using hne
  simp only [load_bip39]
  rw [h1, filter_replicate_true (fun w => w != "") s 2048 hp,
    List.length_replicate, if_pos rfl]

/-- C5 counterexample: a 2048-line file consisting of the uppercase word
"ZZ" repeated is accepted by the loader unchanged, so the loader's output
is neither pairwise distinct nor lowercase — the loader only checks the
count. -/
theorem loader_distinct_counterexample :
    load_bip39 (some (List.replicate 2048 ("ZZ")))
      = .ok (List.replicate 2048 ("ZZ"))
  ∧ ¬(List.replicate 2048 ("ZZ")).Nodup
  ∧ ¬(∀ w ∈ List.replicate 2048 ("ZZ"), pyLower w = w) := by
  refine ⟨load_replicate ("ZZ") (by decide) (by decide), ?_, ?_⟩
  · rw [List.nodup_replicate]
    decide
  · intro hall
    have h1 := hall ("ZZ") (List.mem_replicate.mpr ⟨by decide, rfl⟩)
    exact absurd h1 (by decide)

/-- C5 (amended): whatever the loader returns is an ordered sequence of
exactly 2048 nonempty entries — the stripped non-blank lines of the input
file in file order — and it is distinct (resp. lowercase) exactly when
those lines are; the value is immutable once returned.  The loader itself
enforces only the count. -/
theorem loader_output_invariant (file : Option (List String))
    (ws : List String) (h : load_bip39 file = .ok ws) :
    ws.length = 2048
  ∧ (∃ rawLines, file = some rawLines
      ∧ ws = (rawLines.map pyStrip).filter (fun w => w != ""))
  ∧ (∀ w ∈ ws, w ≠ "")
  ∧ (∀ rawLines, file = some rawLines →
      ((rawLines.map pyStrip).filter (fun w => w != "")).Nodup → ws.Nodup)
  ∧ (∀ rawLines, file = some rawLines →
      (∀ w ∈ (rawLines.map pyStrip).filter (fun w => w != ""), pyLower w = w) →
      ∀ w ∈ ws, pyLower w = w) := by
  match file with
  | none => simp [load_bip39] at h
  | some rawLines =>
    simp only [load_bip39] at h
    split at h
    case isTrue hlen =>
      have hws : (rawLines.map pyStrip).filter (fun w => w != "") = ws :=
        Except.ok.inj h
      subst hws
      refine ⟨hlen, ⟨rawLines, rfl, rfl⟩, ?_, ?_, ?_⟩
      · intro w hw
        simpa using List.of_mem_filter hw
      · intro rl heq hnd
        have : rl = rawLines := (Option.some.inj heq).symm
        subst this
        exact hnd
      · intro rl heq hlow
        have : rl = rawLines := (Option.some.inj heq).symm
        subst this
        exact hlow
    case isFalse => simp at h

/-- Witness for the amended C5 on a concrete accepted file. -/
theorem loader_output_invariant_witness :
    load_bip39 (some (List.replicate 2048 ("zz")))
      = .ok (List.replicate 2048 ("zz"))
  ∧ (List.replicate 2048 ("zz")).length = 2048 := by
  have h := load_replicate ("zz") (by decide) (by decide)
  exact ⟨h, (loader_output_invariant _ _ h).1⟩

/-- C6: the loader strips each line, discards blank lines, and returns the
remaining lines in file order; it fails with a descriptive message exactly
when the file is missing or the resulting sequence does not have exactly
2048 entries. -/
theorem loader_contract (file : Option (List String)) :
    load_bip39 none = .error ("Word list file not found.")
  ∧ (∀ rawLines,
      load_bip39 (some rawLines) =
        (if ((rawLines.map pyStrip).filter (fun w => w != "")).length = 2048
         then .ok ((rawLines.map pyStrip).filter (fun w => w != ""))
         else .error ("Unexpected word list length: "
            ++ toString ((rawLines.map pyStrip).filter (fun w => w != "")).length
            ++ " (expected 2048).")))
  ∧ ((∃ msg, load_bip39 file = .error msg) ↔
      (file = none ∨ ∃ rawLines, file = some rawLines
        ∧ ((rawLines.map pyStrip).filter (fun w => w != "")).length ≠ 2048)) := by
  refine ⟨rfl, fun rawLines => rfl, ?_⟩
  match file with
  | none => simp [load_bip39]
  | some rawLines =>
    simp only [load_bip39]
    constructor
    · rintro ⟨msg, hmsg⟩
      right
      refine ⟨rawLines, rfl, ?_⟩
      intro hlen
      rw [if_pos hlen] at hmsg
      simp at hmsg
    · rintro (hc | ⟨rl, hrl, hlen⟩)
      · simp at hc
      · have : rl = rawLines := (Option.some.inj hrl).symm
        subst this
        rw [if_neg hlen]
        exact ⟨_, rfl⟩

theorem plateRows_length (start : Nat) (block : List Nat) :
    (plateRows start block).length = block.length := by
  induction block generalizing start with
  | nil => rfl
  | cons b rest ih => simp [plateRows, ih]

theorem plateRows_map_wordNo (start : Nat) (block : List Nat) :
    (plateRows start block).map PlateRow.wordNo
      = List.range' start block.length := by
  induction block generalizing start with
  | nil => rfl
  | cons b rest ih =>
    simp only [plateRows, List.map_cons, List.length_cons, List.range'_succ]
    exact congrArg (_ :: ·) (ih (start + 1))

theorem plateRows_map_idx (start : Nat) (block : List Nat) :
    (plateRows start block).map PlateRow.idx1 = block := by
  induction block generalizing start with
  | nil => rfl
  | cons b rest ih =>
    simp only [plateRows, List.map_cons]
    exact congrArg (_ :: ·) (ih (start + 1))

theorem plateRows_getElem (start : Nat) (block : List Nat) :
    ∀ k idx : Nat, block[k]? = some idx →
      (plateRows start block)[k]? = some (plateRowOf (start + k) idx) := by
  induction block generalizing start with
  | nil => intro k idx h; simp at h
  | cons b rest ih =>
    intro k idx h
    cases k with
    | zero =>
      simp only [List.getElem?_cons_zero, Option.some.injEq] at h
      subst h
      simp [plateRows]
    | succ k2 =>
      simp only [List.getElem?_cons_succ] at h
      have h2 := ih (start + 1) k2 idx h
      have h3 : start + 1 + k2 = start + (k2 + 1) := by omega
      rw [h3] at h2
      simpa [plateRows] using h2

/-- C7: the loop guard fails exactly at 24 accepted words (there is no
other exit), and on completion the program renders exactly two plates:
plate 1 from the first 12 session indices with word numbers 1..12, plate 2
from the last 12 with word numbers 13..24. -/
theorem session_complete_renders (ratio : String → String → ℚ)
    (wl : List String) (inputs : List String) :
    ((runLoop ratio wl initSession inputs).words.length = MAX_WORDS ↔
      ¬(runLoop ratio wl initSession inputs).words.length < MAX_WORDS)
  ∧ (runLoop ratio wl initSession inputs).indices.length
      = (runLoop ratio wl initSession inputs).words.length
  ∧ ((runLoop ratio wl initSession inputs).words.length = MAX_WORDS →
      mainPlates (runLoop ratio wl initSession inputs).indices
        = (render_plate_rotated
            ((runLoop ratio wl initSession inputs).indices.take PLATE_ROWS) 1 1,
           render_plate_rotated
            ((runLoop ratio wl initSession inputs).indices.drop PLATE_ROWS) 2 13)
      ∧ (mainPlates (runLoop ratio wl initSession inputs).indices).1.rows.length
          = PLATE_ROWS
      ∧ (mainPlates (runLoop ratio wl initSession inputs).indices).2.rows.length
          = PLATE_ROWS
      ∧ (mainPlates (runLoop ratio wl initSession inputs).indices).1.rows.map
          PlateRow.wordNo = List.range' 1 PLATE_ROWS
      ∧ (mainPlates (runLoop ratio wl initSession inputs).indices).2.rows.map
          PlateRow.wordNo = List.range' 13 PLATE_ROWS
      ∧ List.range' 1 PLATE_ROWS = [1, 2, 3, 4, 5, 6, 7, 8, 9, 10, 11, 12]
      ∧ List.range' 13 PLATE_ROWS
          = [13, 14, 15, 16, 17, 18, 19, 20, 21, 22, 23, 24]) := by
  have hle := runLoop_length_le ratio wl inputs initSession (by simp [initSession])
  have hsync := runLoop_sync ratio wl inputs initSession rfl
  have hMW : MAX_WORDS = 24 := rfl
  refine ⟨by omega, hsync.symm, ?_⟩
  intro h24
  have hidx : (runLoop ratio wl initSession inputs).indices.length = 24 := by
    omega
  have htake : ((runLoop ratio wl initSession inputs).indices.take
      PLATE_ROWS).length = PLATE_ROWS := by
    rw [List.length_take, hidx]
    decide
  have hdrop : ((runLoop ratio wl initSession inputs).indices.drop
      PLATE_ROWS).length = PLATE_ROWS := by
    rw [List.length_drop, hidx]
    decide
  refine ⟨rfl, ?_, ?_, ?_, ?_, by decide, by decide⟩
  · simpa [mainPlates, render_plate_rotated, plateRows_length] using htake
  · simpa [mainPlates, render_plate_rotated, plateRows_length] using hdrop
  · simp only [mainPlates, render_plate_rotated, plateRows_map_wordNo, htake]
  · simp only [mainPlates, render_plate_rotated, plateRows_map_wordNo, hdrop]

/-- Witness for C7: feeding 24 copies of a valid word fills the session to
24 words and plate 1 then has exactly 12 rows. -/
theorem session_complete_renders_witness :
    (runLoop ratio0 wl0 initSession (List.replicate 24 ("abandon"))).words.length
      = MAX_WORDS
  ∧ (mainPlates (runLoop ratio0 wl0 initSession
      (List.replicate 24 ("abandon"))).indices).1.rows.length = PLATE_ROWS := by
  have h24 : (runLoop ratio0 wl0 initSession
      (List.replicate 24 ("abandon"))).words.length = MAX_WORDS := by decide
  exact ⟨h24, ((session_complete_renders ratio0 wl0
    (List.replicate 24 ("abandon"))).2.2 h24).2.1⟩

/-- C8: rendering a block yields the header listing the twelve descending
weights and exactly one row per index in block order; the row at position
`k` carries word number `start_word_no + k` and the raw index, and its mark
under the weight `p` in column `j` is filled precisely when `p` is a member
of `rows_to_punch` of that index; the renderer is a pure function of its
three arguments (it takes no session or wordlist state). -/
theorem render_correct (block : List Nat) (plate_no start_word_no : Nat) :
    (render_plate_rotated block plate_no start_word_no).headerWeights
      = POWERS_DESC
  ∧ (render_plate_rotated block plate_no start_word_no).plateNo = plate_no
  ∧ (render_plate_rotated block plate_no start_word_no).rows.length
      = block.length
  ∧ (∀ k idx : Nat, block[k]? = some idx →
      (render_plate_rotated block plate_no start_word_no).rows[k]?
        = some (plateRowOf (start_word_no + k) idx))
  ∧ (∀ wordNo idx : Nat, (plateRowOf wordNo idx).wordNo = wordNo
      ∧ (plateRowOf wordNo idx).idx1 = idx
      ∧ (plateRowOf wordNo idx).marks.length = POWERS_DESC.length
      ∧ (∀ j p : Nat, POWERS_DESC[j]? = some p →
          ((plateRowOf wordNo idx).marks[j]? = some true ↔
            p ∈ rows_to_punch idx))) := by
  refine ⟨rfl, rfl, plateRows_length start_word_no block,
    plateRows_getElem start_word_no block, ?_⟩
  intro wordNo idx
  refine ⟨rfl, rfl, by simp [plateRowOf], ?_⟩
  intro j p hp
  have hmem : p ∈ POWERS_DESC := by
    have := List.getElem?_eq_some.mp hp
    obtain ⟨hj, hget⟩ := this
    exact hget ▸ List.getElem_mem hj
  have hmk : (plateRowOf wordNo idx).marks[j]?
      = some (idx &&& p != 0) := by
    simp only [plateRowOf, List.getElem?_map, hp, Option.map_some']
  rw [hmk]
  simp only [Option.some.injEq, rows_to_punch, List.mem_filter]
  constructor
  · intro hb
    exact ⟨hmem, hb⟩
  · intro hb
    exact hb.2

/-- Witness for C8: the first row of a concrete rendered block. -/
theorem render_correct_witness :
    (render_plate_rotated [3, 2048] 1 1).rows[0]? = some (plateRowOf 1 3) := by
  have h := (render_correct [3, 2048] 1 1).2.2.2.1 0 3 (by decide)
  simpa using h

theorem step_no_command_words (ratio : String → String → ℚ)
    (wl : List String) (s : Session) (input : String)
    (hs : ∀ w ∈ s.words, w ≠ "back" ∧ w ≠ "undo") :
    ∀ w ∈ (step ratio wl s input).words, w ≠ "back" ∧ w ≠ "undo" := by
  simp only [step]
  split
  · split
    · exact hs
    · intro w hw
      exact hs w ((List.dropLast_sublist _).mem hw)
  · split
    · exact hs
    · split
      · intro w hw
        rcases List.mem_append.mp hw with h1 | h1
        · exact hs w h1
        · have h2 : w = pyLower (pyStrip input) := by simpa using h1
          subst h2
          have h3 := ‹¬(pyLower (pyStrip input) = "back"
            ∨ pyLower (pyStrip input) = "undo")›
          push_neg at h3
          exact h3
      · exact hs

theorem runLoop_no_command_words (ratio : String → String → ℚ)
    (wl : List String) (inputs : List String) (s : Session)
    (hs : ∀ w ∈ s.words, w ≠ "back" ∧ w ≠ "undo") :
    ∀ w ∈ (runLoop ratio wl s inputs).words, w ≠ "back" ∧ w ≠ "undo" := by
  induction inputs generalizing s with
  | nil => simpa [runLoop] using hs
  | cons input rest ih =>
    rw [runLoop]
    split
    · exact ih _ (step_no_command_words ratio wl s input hs)
    · exact hs

/-- C10: every input line is stripped and lowercased before interpretation,
so two inputs with the same normal form act identically on any state; the
command check precedes word resolution, so a back/undo input (any case,
any surrounding whitespace) always performs the undo behaviour and is
never appended: no session reachable from empty ever holds the word back
or undo. -/
theorem input_normalization (ratio : String → String → ℚ) (wl : List String)
    (s : Session) (i1 i2 : String) (inputs : List String)
    (h : pyLower (pyStrip i1) = pyLower (pyStrip i2)) :
    step ratio wl s i1 = step ratio wl s i2
  ∧ ((pyLower (pyStrip i1) = "back" ∨ pyLower (pyStrip i1) = "undo") →
      ((s.words = [] ∧ step ratio wl s i1 = s)
        ∨ (s.words ≠ [] ∧ step ratio wl s i1
            = ⟨s.words.dropLast, s.indices.dropLast⟩)))
  ∧ "back" ∉ (runLoop ratio wl initSession inputs).words
  ∧ "undo" ∉ (runLoop ratio wl initSession inputs).words := by
  have hrun := runLoop_no_command_words ratio wl inputs initSession
    (by intro w hw; simp [initSession] at hw)
  refine ⟨?_, ?_, ?_, ?_⟩
  · simp only [step, h]
  · intro hcmd
    by_cases hnil : s.words = []
    · have he : s.words.isEmpty = true := by simp [hnil]
      exact Or.inl ⟨hnil, by simp [step, hcmd, he]⟩
    · have he : ¬s.words.isEmpty = true := by simpa [List.isEmpty_iff] using hnil
      exact Or.inr ⟨hnil, by simp [step, hcmd, he]⟩
  · intro hmem
    exact (hrun _ hmem).1 rfl
  · intro hmem
    exact (hrun _ hmem).2 rfl

/-- Witness for C10: two spellings of the undo command with different case
and whitespace act identically on the empty session. -/
theorem input_normalization_witness :
    step ratio0 wl0 initSession ("Undo") = step ratio0 wl0 initSession (" UNDO ") :=
  (input_normalization ratio0 wl0 initSession ("Undo") (" UNDO ") []
    (by decide)).1
